import Mathlib

/-!
Verification of the fluxit manifest-generation pipeline.

This file gives a shallow embedding of the core of the repository:

* `render_templates` (src/fluxit/fluxit.py): Jinja rendering with
  StrictUndefined and the literal skip sentinel;
* `validate_and_format_yaml` (src/fluxit/fluxit.py): YAML validation and
  canonical re-serialization, modelled over an executable fragment of YAML
  (multi-document streams of flat mappings with plain / double-quoted /
  single-quoted scalar values, which is the shape of the manifests the
  tool round-trips through ruamel.yaml);
* `confirm_and_save` (src/fluxit/output.py): the persistence decision
  engine, with the interactive prompt and the filesystem modelled as
  explicit oracles;
* `processPaths` / `runPipeline` (src/fluxit/cli.py main loop): the
  orchestrator sequencing the above per output path.

Theorems at the end settle the specified behavioural properties.
-/

namespace Fluxit

/-- A piece of a Jinja template: literal text or a variable reference. -/
inductive Part where
  | lit (s : String)
  | var (name : String)
deriving DecidableEq

/-- A template is a sequence of pieces. -/
abbrev Template := List Part

/-- The variable context passed to the renderer: name to value. -/
abbrev Ctx := List (String × String)

/-- Look up a variable by name in the context. -/
def lookupVar : Ctx → String → Option String
  | [], _ => none
  | (k, v) :: rest, n => if k = n then some v else lookupVar rest n

/-- Render one template under StrictUndefined semantics: a reference to a
variable absent from the context fails with that variable's name,
modelling jinja2.UndefinedError raised by j2.StrictUndefined. -/
def renderTemplate : Template → Ctx → Except String String
  | [], _ => .ok ""
  | .lit s :: rest, ctx => (renderTemplate rest ctx).map (fun r => s ++ r)
  | .var n :: rest, ctx =>
    match lookupVar ctx n with
    | none => .error n
    | some v => (renderTemplate rest ctx).map (fun r => v ++ r)

/-- The literal sentinel whose (whitespace-trimmed) presence as a whole
rendered output suppresses that file. -/
def skipToken : String := "__SKIP__"

/-- Model of Python str.strip(): remove leading and trailing whitespace. -/
def pyStrip (s : String) : String :=
  String.mk
    (((s.data.dropWhile Char.isWhitespace).reverse.dropWhile
      Char.isWhitespace).reverse)

/-- Result of `render_templates`: either the rendered mapping in discovery
order, or a fatal process exit carrying the exit code, the failing
template path and the missing variable. -/
inductive RenderResult where
  | ok (entries : List (String × String))
  | fatal (code : Nat) (path : String) (missingVar : String)
deriving DecidableEq

/-- Model of `fluxit.render_templates`: iterate discovered templates in
order; a rendered output whose `strip()` equals the sentinel is skipped;
an undefined-variable error logs the path and variable and calls
`exit(1)`, so no mapping is returned. -/
def render_templates : List (String × Template) → Ctx → RenderResult
  | [], _ => .ok []
  | (path, t) :: rest, ctx =>
    match renderTemplate t ctx with
    | .error v => .fatal 1 path v
    | .ok content =>
      if pyStrip content = skipToken then render_templates rest ctx
      else
        match render_templates rest ctx with
        | .ok m => .ok ((path, content) :: m)
        | .fatal c p v => .fatal c p v

/-- Model of `Path(relative_path_j2).with_suffix("")` as applied by
`cli.main` to the renderer's keys, all of which carry the `.j2` marker. -/
def stripJ2 (s : String) : String :=
  if s.data.reverse.take 3 = ['2', 'j', '.'] then
    String.mk s.data.dropLast.dropLast.dropLast
  else s

end Fluxit

namespace Fluxit

/-- Confirmation policy of the `--confirm` option. -/
inductive Confirm where
  | always
  | never
  | if_exists
deriving DecidableEq

/-- Operator's reaction to the inquirer confirmation prompt: an answer, or
a KeyboardInterrupt (ctrl+C). -/
inductive PromptResult where
  | answer (b : Bool)
  | interrupt
deriving DecidableEq

/-- What is shown to the operator before the prompt: a unified diff of old
versus new content, or the full new content. -/
inductive Preview where
  | diff (old new : String)
  | fullContent (c : String)
deriving DecidableEq

/-- The prompt message variant: overwrite an existing file, or save a new
file. -/
inductive Msg where
  | overwrite
  | saveNew
deriving DecidableEq

/-- Final outcome of `confirm_and_save` for one output path. -/
inductive Outcome where
  | unchanged
  | declined
  | aborted (code : Nat)
  | saved
  | saveFailed
deriving DecidableEq

/-- Observable result of one `confirm_and_save` call. -/
structure SaveResult where
  prompted : Option (Preview × Msg) := none
  warned : Bool := false
  outcome : Outcome
deriving DecidableEq

/-- Intermediate state of the persistence decision state machine. -/
inductive DecisionState where
  | unchanged
  | needsReview
  | directWrite
  | directWriteWarn
deriving DecidableEq

/-- Python truthiness of the optional existing file content: None and the
empty string are falsy. -/
def truthyOpt : Option String → Bool
  | none => false
  | some s => !(s = "")

/-- The decision taken by `confirm_and_save` before any interaction, as a
function of the policy, whether the file exists, and the content read
back from it (None when the file is absent or unreadable). -/
def decideState (fileExists : Bool) (existing : Option String)
    (formatted : String) (conf : Confirm) : DecisionState :=
  if fileExists = true ∧ existing = some formatted then .unchanged
  else if conf = .always ∨ (conf = .if_exists ∧ fileExists = true) then .needsReview
  else if conf = .never ∧ fileExists = true then .directWriteWarn
  else .directWrite

/-- Model of `output.confirm_and_save`. `fileExists` and `existing` model
`output_file_path.exists()` and `read_file_content`; `pa` is the oracle
for the inquirer prompt; `writeOk` is the oracle for the success of
`mkdir` plus `write_template`. A KeyboardInterrupt during the prompt maps
to `sys.exit(0)`, modelled as `Outcome.aborted 0`; a caught save
exception maps to `Outcome.saveFailed`. -/
def confirm_and_save (fileExists : Bool) (existing : Option String)
    (formatted : String) (conf : Confirm) (pa : PromptResult)
    (writeOk : Bool) : SaveResult :=
  match decideState fileExists existing formatted conf with
  | .unchanged => { outcome := .unchanged }
  | .needsReview =>
    let preview :=
      if fileExists = true ∧ truthyOpt existing = true then
        Preview.diff (existing.getD "") formatted
      else Preview.fullContent formatted
    let msg := if fileExists = true then Msg.overwrite else Msg.saveNew
    match pa with
    | .interrupt => { prompted := some (preview, msg), outcome := .aborted 0 }
    | .answer false => { prompted := some (preview, msg), outcome := .declined }
    | .answer true =>
      { prompted := some (preview, msg),
        outcome := if writeOk then .saved else .saveFailed }
  | .directWriteWarn =>
    { warned := true, outcome := if writeOk then .saved else .saveFailed }
  | .directWrite => { outcome := if writeOk then .saved else .saveFailed }

/-- Character lists, the byte-level representation of file content. -/
abbrev Chars := List Char

/-- Split text into lines at newline characters; the result is always
nonempty and a trailing newline yields a final empty line. -/
def splitNl : Chars → List Chars
  | [] => [[]]
  | c :: rest =>
    if c = '\n' then [] :: splitNl rest
    else
      match splitNl rest with
      | [] => [[c]]
      | l :: ls => (c :: l) :: ls

/-- Rebuild text from lines, terminating every line with a newline, the
style in which ruamel.yaml emits block mappings. -/
def linesToText (ls : List Chars) : Chars :=
  (ls.map (fun l => l ++ ['\n'])).flatten

/-- Drop the final empty line produced by `splitNl` on newline-terminated
text (text not ending in a newline is left as is). -/
def dropLastEmpty : List Chars → List Chars
  | [] => []
  | [l] => if l = [] then [] else [l]
  | l :: l2 :: rest => l :: dropLastEmpty (l2 :: rest)

/-- The YAML document separator line. -/
def sepLine : Chars := ['-', '-', '-']

/-- A line is blank when it consists of spaces only. -/
def isBlank (l : Chars) : Prop := ∀ c ∈ l, c = ' '

instance (l : Chars) : Decidable (isBlank l) := by
  unfold isBlank; infer_instance

/-- A line is a comment when its first non-space character is a hash. -/
def isComment (l : Chars) : Prop :=
  (l.dropWhile (fun c => decide (c = ' '))).head? = some '#'

instance (l : Chars) : Decidable (isComment l) := by
  unfold isComment; infer_instance

/-- Lines carrying no structured data: blank, comment, or separator. -/
def isTrivial (l : Chars) : Prop :=
  isBlank l ∨ isComment l ∨ l = sepLine

instance (l : Chars) : Decidable (isTrivial l) := by
  unfold isTrivial; infer_instance

/-- Group lines into document segments at separator lines. -/
def splitSep : List Chars → List (List Chars)
  | [] => [[]]
  | l :: rest =>
    if l = sepLine then [] :: splitSep rest
    else
      match splitSep rest with
      | [] => [[l]]
      | s :: ss => (l :: s) :: ss

/-- Quoting style of a scalar, preserved by ruamel.yaml with
`preserve_quotes = True`. -/
inductive QStyle where
  | plain
  | dquote
  | squote
deriving DecidableEq

/-- A scalar value together with its quoting style; `text` holds the
content characters without the surrounding quotes. -/
structure Scalar where
  style : QStyle
  text : Chars
deriving DecidableEq

/-- Characters allowed in a plain scalar of the fragment. -/
def okPlainChar (c : Char) : Prop :=
  c ≠ '\n' ∧ c ≠ '#' ∧ c ≠ ':' ∧ c ≠ '"' ∧ c ≠ '\''

instance (c : Char) : Decidable (okPlainChar c) := by
  unfold okPlainChar; infer_instance

/-- Validity of a plain scalar: nonempty, allowed characters only, and no
surrounding spaces (YAML strips those, so they would not round-trip). -/
def plainOk (t : Chars) : Prop :=
  t ≠ [] ∧ (∀ c ∈ t, okPlainChar c) ∧
    t.head? ≠ some ' ' ∧ t.getLast? ≠ some ' '

instance (t : Chars) : Decidable (plainOk t) := by
  unfold plainOk; infer_instance

/-- Validity of a double-quoted scalar body: no quote, escape or newline. -/
def dqOk (t : Chars) : Prop :=
  ∀ c ∈ t, c ≠ '"' ∧ c ≠ '\\' ∧ c ≠ '\n'

instance (t : Chars) : Decidable (dqOk t) := by
  unfold dqOk; infer_instance

/-- Validity of a single-quoted scalar body: no quote or newline. -/
def sqOk (t : Chars) : Prop :=
  ∀ c ∈ t, c ≠ '\'' ∧ c ≠ '\n'

instance (t : Chars) : Decidable (sqOk t) := by
  unfold sqOk; infer_instance

/-- Validity of a scalar with respect to its style. -/
def scalarOk (s : Scalar) : Prop :=
  match s.style with
  | .plain => plainOk s.text
  | .dquote => dqOk s.text
  | .squote => sqOk s.text

instance : (s : Scalar) → Decidable (scalarOk s)
  | ⟨.plain, t⟩ => inferInstanceAs (Decidable (plainOk t))
  | ⟨.dquote, t⟩ => inferInstanceAs (Decidable (dqOk t))
  | ⟨.squote, t⟩ => inferInstanceAs (Decidable (sqOk t))

/-- Serialize a scalar, re-emitting its recorded quoting style. -/
def dumpScalar (s : Scalar) : Chars :=
  match s.style with
  | .plain => s.text
  | .dquote => '"' :: (s.text ++ ['"'])
  | .squote => '\'' :: (s.text ++ ['\''])

/-- Parse the value part of a mapping line into a scalar, recording the
quoting style found in the input. -/
def parseScalar (v : Chars) : Option Scalar :=
  match v with
  | [] => none
  | c :: rest =>
    if c = '"' then
      match rest.getLast? with
      | some d =>
        if d = '"' ∧ dqOk rest.dropLast then some ⟨.dquote, rest.dropLast⟩
        else none
      | none => none
    else if c = '\'' then
      match rest.getLast? with
      | some d =>
        if d = '\'' ∧ sqOk rest.dropLast then some ⟨.squote, rest.dropLast⟩
        else none
      | none => none
    else if plainOk (c :: rest) then some ⟨.plain, c :: rest⟩
    else none

/-- Characters allowed in a mapping key of the fragment. -/
def okKeyChar (c : Char) : Prop :=
  c ≠ ':' ∧ c ≠ '\n' ∧ c ≠ '#' ∧ c ≠ '"' ∧ c ≠ '\''

instance (c : Char) : Decidable (okKeyChar c) := by
  unfold okKeyChar; infer_instance

/-- Validity of a mapping key. -/
def keyOk (k : Chars) : Prop :=
  k ≠ [] ∧ (∀ c ∈ k, okKeyChar c) ∧
    k.head? ≠ some ' ' ∧ k.getLast? ≠ some ' '

instance (k : Chars) : Decidable (keyOk k) := by
  unfold keyOk; infer_instance

/-- Split a line at its first colon. -/
def splitColon : Chars → Option (Chars × Chars)
  | [] => none
  | c :: rest =>
    if c = ':' then some ([], rest)
    else (splitColon rest).map (fun kv => (c :: kv.1, kv.2))

/-- One key/value entry of a flat mapping document. -/
abbrev Entry := Chars × Scalar

/-- A document of the fragment: a flat mapping in block style. -/
abbrev Doc := List Entry

/-- Serialize one mapping line in the canonical `key: value` shape. -/
def dumpLine (p : Entry) : Chars :=
  p.1 ++ ':' :: ' ' :: dumpScalar p.2

/-- Parse one mapping line of the form `key: value`: the key before the
first colon, one space, then the scalar. -/
def parseLine (l : Chars) : Option Entry :=
  match splitColon l with
  | none => none
  | some (k, rest) =>
    match rest with
    | [] => none
    | c :: v =>
      if c = ' ' then
        if keyOk k then (parseScalar v).map (fun s => (k, s)) else none
      else none

/-- Parse every line of one document segment. -/
def parseLines : List Chars → Option (List Entry)
  | [] => some []
  | l :: rest =>
    match parseLine l with
    | none => none
    | some p => (parseLines rest).map (fun ps => p :: ps)

/-- Parse every segment; an empty segment is rejected. -/
def parseSegs : List (List Chars) → Option (List Doc)
  | [] => some []
  | seg :: rest =>
    if seg.isEmpty then none
    else
      match parseLines seg with
      | none => none
      | some d => (parseSegs rest).map (fun ds => d :: ds)

/-- Serialize one document as its lines. -/
def dumpDoc (d : Doc) : List Chars := d.map dumpLine

/-- Interleave document line blocks with separator lines, the layout
`ruamel.yaml.dump_all` uses for multi-document streams. -/
def sepJoin : List (List Chars) → List Chars
  | [] => []
  | [d] => d
  | d1 :: d2 :: rest => d1 ++ sepLine :: sepJoin (d2 :: rest)

/-- Canonical serialization of a document stream. -/
def dumpDocs (ds : List Doc) : Chars :=
  linesToText (sepJoin (ds.map dumpDoc))

/-- Model of `yaml.load_all` on the fragment. A text whose lines are all
blank, comments or separators parses as a stream of null documents;
otherwise every segment must be a nonempty flat mapping. `none` models a
parse exception / text outside the fragment. -/
def parseDocs (cs : Chars) : Option (List (Option Doc)) :=
  if ∀ l ∈ dropLastEmpty (splitNl cs), isTrivial l then
    some ((splitSep (dropLastEmpty (splitNl cs))).map (fun _ => none))
  else
    match parseSegs (splitSep (dropLastEmpty (splitNl cs))) with
    | none => none
    | some ds => some (ds.map some)

/-- Model of `yaml.dump_all` over the parsed stream; a null document
contributes no mapping lines. -/
def dumpAllOpt (ds : List (Option Doc)) : Chars :=
  dumpDocs (ds.map (fun d => d.getD []))

/-- Python truthiness of a parsed document that is not None: a non-None
document counts only when it is a nonempty mapping. This models
`any(doc for doc in parsed_data if doc is not None)`. -/
def meaningful (ds : List (Option Doc)) : Bool :=
  ds.any (fun d =>
    match d with
    | some (_ :: _) => true
    | _ => false)

/-- Model of `fluxit.validate_and_format_yaml`: parse the content as a
multi-document YAML stream; on a parse exception return
`(none, content)`; when every document is null or empty also return
`(none, content)`; otherwise return the parsed documents and the
canonical re-serialization. -/
def validate_and_format_yaml (content : String) :
    Option (List (Option Doc)) × String :=
  match parseDocs content.data with
  | none => (none, content)
  | some ds =>
    let formatted := String.mk (dumpAllOpt ds)
    if meaningful ds then (some ds, formatted) else (none, content)

/-- Per-path environment: filesystem and operator oracles consumed by one
iteration of the orchestrator loop. -/
structure PathEnv where
  fileExists : Bool
  existing : Option String
  promptAnswer : PromptResult
  writeOk : Bool
deriving DecidableEq

/-- What happened to one output path during the run. -/
inductive Event where
  | skippedInvalid (path : String)
  | processed (path : String) (r : SaveResult)
deriving DecidableEq

/-- Result of the orchestrator loop: the run finished, or it was
terminated by `sys.exit` raised inside `confirm_and_save` (SystemExit is
not an `Exception`, so the loop's handler does not catch it). Events are
listed in processing order. -/
inductive RunResult where
  | finished (events : List Event)
  | abortedRun (code : Nat) (events : List Event)
deriving DecidableEq

/-- Prepend one event to a run result. -/
def RunResult.consEvent (e : Event) : RunResult → RunResult
  | .finished es => .finished (e :: es)
  | .abortedRun c es => .abortedRun c (e :: es)

/-- Prepend a list of events to a run result. -/
def RunResult.consEvents (es : List Event) (r : RunResult) : RunResult :=
  es.foldr RunResult.consEvent r

/-- Whether an event records a completed write. -/
def eventWrote : Event → Bool
  | .processed _ r =>
    match r.outcome with
    | .saved => true
    | _ => false
  | .skippedInvalid _ => false

/-- Continuation of the loop after `confirm_and_save` returned `r` for
path `p`: a `sys.exit` (SystemExit is not an `Exception`, so the loop's
handler does not catch it) terminates the run, anything else records the
event and continues with the remaining paths `k`. -/
def processOne (p : String) (r : SaveResult) (k : RunResult) : RunResult :=
  match r.outcome with
  | .aborted c => .abortedRun c [Event.processed p r]
  | _ => k.consEvent (.processed p r)

/-- Model of the per-path loop of `cli.main`: validate each rendered
content, skip unparseable content with a warning, otherwise run
`confirm_and_save`; a `sys.exit` from the decision engine terminates the
whole loop. -/
def processPaths : List (String × String × PathEnv) → Confirm → RunResult
  | [], _ => .finished []
  | (p, raw, env) :: rest, conf =>
    match validate_and_format_yaml raw with
    | (none, _) => (processPaths rest conf).consEvent (.skippedInvalid p)
    | (some _, formatted) =>
      processOne p
        (confirm_and_save env.fileExists env.existing formatted conf
          env.promptAnswer env.writeOk)
        (processPaths rest conf)

/-- Result of the whole pipeline: a fatal render-time exit before any
path is processed, or the orchestrator run over the rendered mapping. -/
inductive PipelineResult where
  | fatalRender (code : Nat) (path : String) (missingVar : String)
  | ran (r : RunResult)
deriving DecidableEq

/-- Model of `cli.main` from rendering onwards: render every template,
then process each rendered output path, with the `.j2` marker stripped
to form the output path handed to the decision engine. -/
def runPipeline (templates : List (String × Template)) (ctx : Ctx)
    (env : String → PathEnv) (conf : Confirm) : PipelineResult :=
  match render_templates templates ctx with
  | .fatal c p v => .fatalRender c p v
  | .ok m => .ran (processPaths (m.map (fun pc => (stripJ2 pc.1, pc.2, env pc.1))) conf)

/-- Events of a run result. -/
def RunResult.events : RunResult → List Event
  | .finished es => es
  | .abortedRun _ es => es

/-- Write events performed by the pipeline. -/
def writtenEvents : PipelineResult → List Event
  | .fatalRender _ _ _ => []
  | .ran r => r.events.filter eventWrote

/-- The output-path / rendered-content mapping the orchestrator derives
from the renderer's result by stripping the template marker. -/
def outputEntries (templates : List (String × Template)) (ctx : Ctx) :
    Option (List (String × String)) :=
  match render_templates templates ctx with
  | .ok m => some (m.map (fun pc => (stripJ2 pc.1, pc.2)))
  | .fatal _ _ _ => none

/-- The concrete scenario of the specification: template `a` renders the
line `key: x` from the context variable `v`, template `b` renders only
the skip sentinel. -/
def demoTemplates : List (String × Template) :=
  [("a.j2", [Part.lit "key: ", Part.var "v", Part.lit "\n"]),
   ("b.j2", [Part.lit "__SKIP__"])]

/-- The context of the concrete scenario. -/
def demoCtx : Ctx := [("v", "x")]

theorem render_templates_keys {l : List (String × Template)} {ctx : Ctx}
    {m : List (String × String)} (hok : render_templates l ctx = .ok m) :
    ∀ pc ∈ m, pc.1 ∈ l.map Prod.fst := by
  induction l generalizing m with
  | nil =>
    simp only [render_templates] at hok
    cases hok
    simp
  | cons hd rest ih =>
    obtain ⟨path, t⟩ := hd
    cases hr : renderTemplate t ctx with
    | error v => simp [render_templates, hr] at hok
    | ok content =>
      by_cases hs : pyStrip content = skipToken
      · simp only [render_templates, hr, hs, if_pos] at hok
        intro pc hpc
        have := ih hok pc hpc
        simp [this]
      · simp only [render_templates, hr, hs, if_neg, not_false_iff] at hok
        cases hrec : render_templates rest ctx with
        | fatal c p v => rw [hrec] at hok; cases hok
        | ok m' =>
          rw [hrec] at hok
          cases hok
          intro pc hpc
          rcases List.mem_cons.mp hpc with h | h
          · subst h; simp
          · have := ih hrec pc h
            simp [this]

theorem render_templates_fatal_of_error {l : List (String × Template)}
    {ctx : Ctx} {p₀ : String} {t₀ : Template} {v₀ : String}
    (hmem : (p₀, t₀) ∈ l) (herr : renderTemplate t₀ ctx = .error v₀) :
    ∃ p v, render_templates l ctx = .fatal 1 p v := by
  induction l with
  | nil => cases hmem
  | cons hd rest ih =>
    obtain ⟨path, t⟩ := hd
    cases hr : renderTemplate t ctx with
    | error v =>
      exact ⟨path, v, by simp [render_templates, hr]⟩
    | ok content =>
      rcases List.mem_cons.mp hmem with h | h
      · cases h
        rw [herr] at hr
        cases hr
      · obtain ⟨p, v, hfat⟩ := ih h
        refine ⟨p, v, ?_⟩
        by_cases hs : pyStrip content = skipToken
        · simp [render_templates, hr, hs, hfat]
        · simp [render_templates, hr, hs, hfat]

theorem render_templates_not_mem {l : List (String × Template)} {ctx : Ctx}
    {m : List (String × String)} {p : String}
    (hok : render_templates l ctx = .ok m) (hp : p ∉ l.map Prod.fst) :
    ∀ c, (p, c) ∉ m :=
  fun c hmem => hp (render_templates_keys hok (p, c) hmem)

/-- C4: a template whose rendered output strips to exactly the skip token
produces no entry at all for its path in the renderer's result, and every
other successfully rendered template does produce its entry. -/
theorem sentinel_suppression (l : List (String × Template)) (ctx : Ctx)
    (m : List (String × String)) (hnd : (l.map Prod.fst).Nodup)
    (hok : render_templates l ctx = .ok m) :
    ∀ p t, (p, t) ∈ l → ∀ c, renderTemplate t ctx = .ok c →
      ((pyStrip c = skipToken → ∀ c', (p, c') ∉ m) ∧
       (pyStrip c ≠ skipToken → (p, c) ∈ m)) := by
  induction l generalizing m with
  | nil => intro p t hmem; cases hmem
  | cons hd rest ih =>
    obtain ⟨path, tq⟩ := hd
    rw [List.map_cons, List.nodup_cons] at hnd
    obtain ⟨hpath, hndr⟩ := hnd
    cases hr : renderTemplate tq ctx with
    | error v => simp [render_templates, hr] at hok
    | ok cq =>
      intro p t hmem c hc
      by_cases hs : pyStrip cq = skipToken
      · simp only [render_templates, hr, hs, if_pos] at hok
        rcases List.mem_cons.mp hmem with h | h
        · obtain ⟨hp, ht⟩ := Prod.mk.injEq .. ▸ h
          subst hp; subst ht
          rw [hc] at hr
          cases hr
          constructor
          · intro _ c'
            exact render_templates_not_mem hok hpath c'
          · intro hcontra
            exact absurd hs hcontra
        · exact ih _ hndr hok p t h c hc
      · simp only [render_templates, hr, hs, if_neg, not_false_iff] at hok
        cases hrec : render_templates rest ctx with
        | fatal cc pp vv => rw [hrec] at hok; cases hok
        | ok m' =>
          rw [hrec] at hok
          cases hok
          rcases List.mem_cons.mp hmem with h | h
          · obtain ⟨hp, ht⟩ := Prod.mk.injEq .. ▸ h
            subst hp; subst ht
            rw [hc] at hr
            cases hr
            constructor
            · intro hcontra
              exact absurd hcontra hs
            · intro _
              exact List.mem_cons_self _ _
          · have hpne : p ≠ path := by
              intro he
              subst he
              exact hpath (List.mem_map.mpr ⟨(p, t), h, rfl⟩)
            obtain ⟨h1, h2⟩ := ih _ hndr hrec p t h c hc
            constructor
            · intro hskip c' hmem'
              rcases List.mem_cons.mp hmem' with hcase | hcase
              · exact hpne (congrArg Prod.fst hcase)
              · exact h1 hskip c' hcase
            · intro hne
              exact List.mem_cons_of_mem _ (h2 hne)

/-- C2: a template referencing a variable absent from the context makes
the renderer terminate the whole run with exit status 1, reporting a
failing path and variable, without returning any rendered mapping, and
the pipeline performs no write for any output path. -/
theorem undefined_variable_aborts_run (l : List (String × Template))
    (ctx : Ctx) (p₀ : String) (t₀ : Template) (v₀ : String)
    (hmem : (p₀, t₀) ∈ l) (herr : renderTemplate t₀ ctx = .error v₀) :
    ∃ p v, render_templates l ctx = .fatal 1 p v ∧ (1 : Nat) ≠ 0 ∧
      ∀ env conf, runPipeline l ctx env conf = .fatalRender 1 p v ∧
        writtenEvents (runPipeline l ctx env conf) = [] := by
  obtain ⟨p, v, hfat⟩ := render_templates_fatal_of_error hmem herr
  refine ⟨p, v, hfat, one_ne_zero, fun env conf => ⟨?_, ?_⟩⟩
  · simp [runPipeline, hfat]
  · simp [runPipeline, hfat, writtenEvents]

/-- Witness for C2 at a concrete template set: a single template
referencing the absent variable `missing`. -/
theorem undefined_variable_aborts_run_witness :
    ∃ p v, render_templates [("a.j2", [Part.var "missing"])] [] = .fatal 1 p v ∧
      (1 : Nat) ≠ 0 ∧
      ∀ env conf,
        runPipeline [("a.j2", [Part.var "missing"])] [] env conf =
          .fatalRender 1 p v ∧
        writtenEvents (runPipeline [("a.j2", [Part.var "missing"])] [] env conf) =
          [] :=
  undefined_variable_aborts_run [("a.j2", [Part.var "missing"])] []
    "a.j2" [Part.var "missing"] "missing" (by simp) rfl

/-- Witness for C4: the sentinel template `b` of the concrete scenario
has no entry in the renderer's result. -/
theorem sentinel_suppression_witness :
    (pyStrip "__SKIP__" = skipToken →
      ∀ c', (("b.j2" : String), c') ∉
        [(("a.j2" : String), ("key: x\n" : String))]) ∧
    (pyStrip "__SKIP__" ≠ skipToken →
      (("b.j2" : String), ("__SKIP__" : String)) ∈
        [(("a.j2" : String), ("key: x\n" : String))]) :=
  sentinel_suppression demoTemplates demoCtx [("a.j2", "key: x\n")]
    (by decide) rfl "b.j2" [Part.lit "__SKIP__"] (by decide) "__SKIP__" rfl

/-- C7 counterexample: in the concrete scenario the renderer's result is
keyed by the template's relative path still carrying the `.j2` marker,
not by the stripped output path `a` the claim states. -/
theorem renderer_result_keeps_marker_extension :
    render_templates demoTemplates demoCtx = .ok [("a.j2", "key: x\n")] ∧
    render_templates demoTemplates demoCtx ≠ .ok [("a", "key: x\n")] := by
  refine ⟨rfl, ?_⟩
  intro h
  have h0 : render_templates demoTemplates demoCtx =
      .ok [("a.j2", "key: x\n")] := rfl
  rw [h0] at h
  injection h with h1
  injection h1 with h2 h3
  exact absurd (congrArg Prod.fst h2) (by decide)

/-- C7 amended: the renderer's mapping is keyed by the template path
relative to the base directory, still carrying the marker extension; the
orchestrator strips the marker, so the output mapping of the scenario is
exactly the entry for `a`, with no entry for `b`. -/
theorem output_mapping_strips_marker :
    render_templates demoTemplates demoCtx = .ok [("a.j2", "key: x\n")] ∧
    outputEntries demoTemplates demoCtx = some [("a", "key: x\n")] ∧
    ∀ pc ∈ [(("a" : String), ("key: x\n" : String))],
      pc.1 ≠ "b" ∧ pc.1 ≠ "b.j2" :=
  ⟨rfl, rfl, by decide⟩

/-- C1: the decision matrix of `confirm_and_save`. With no existing file,
`always` prompts while `never` and `if_exists` write directly; with an
existing file whose content differs, `always` and `if_exists` prompt and
`never` writes directly with an overwrite warning; when the existing
content equals the new content byte-for-byte, `confirm_and_save` returns
without prompting, warning or writing, under every policy; states other
than `needsReview` never prompt, and the direct-write states write when
the filesystem permits. -/
theorem confirm_policy_matrix (formatted c : String) (hne : c ≠ formatted)
    (ex : Option String) (conf : Confirm) (pa : PromptResult) (w : Bool) :
    decideState false ex formatted .always = .needsReview ∧
    decideState false ex formatted .never = .directWrite ∧
    decideState false ex formatted .if_exists = .directWrite ∧
    decideState true (some c) formatted .always = .needsReview ∧
    decideState true (some c) formatted .never = .directWriteWarn ∧
    decideState true (some c) formatted .if_exists = .needsReview ∧
    decideState true (some formatted) formatted conf = .unchanged ∧
    confirm_and_save true (some formatted) formatted conf pa w =
      { prompted := none, warned := false, outcome := .unchanged } ∧
    (∀ fe exi, decideState fe exi formatted conf = .needsReview →
      ((confirm_and_save fe exi formatted conf pa w).prompted).isSome = true) ∧
    (∀ fe exi, decideState fe exi formatted conf = .directWrite ∨
        decideState fe exi formatted conf = .directWriteWarn →
      (confirm_and_save fe exi formatted conf pa w).prompted = none ∧
      (w = true →
        (confirm_and_save fe exi formatted conf pa w).outcome = .saved)) := by
  refine ⟨?_, ?_, ?_, ?_, ?_, ?_, ?_, ?_, ?_, ?_⟩
  · simp [decideState]
  · simp [decideState]
  · simp [decideState]
  · simp [decideState, hne]
  · simp [decideState, hne]
  · simp [decideState, hne]
  · simp [decideState]
  · simp [confirm_and_save, decideState]
  · intro fe exi hd
    rw [confirm_and_save, hd]
    cases pa with
    | interrupt => simp
    | answer b => cases b <;> simp
  · intro fe exi hd
    rcases hd with hd | hd <;> rw [confirm_and_save, hd] <;>
      exact ⟨rfl, fun hw => by simp [hw]⟩

/-- Witness for C1 at concrete contents and policy. -/
theorem confirm_policy_matrix_witness :
    decideState false none "new" .always = .needsReview ∧
    decideState false none "new" .never = .directWrite ∧
    decideState false none "new" .if_exists = .directWrite ∧
    decideState true (some "old") "new" .always = .needsReview ∧
    decideState true (some "old") "new" .never = .directWriteWarn ∧
    decideState true (some "old") "new" .if_exists = .needsReview ∧
    decideState true (some "new") "new" .always = .unchanged ∧
    confirm_and_save true (some "new") "new" .always (.answer true) true =
      { prompted := none, warned := false, outcome := .unchanged } ∧
    (∀ fe exi, decideState fe exi "new" .always = .needsReview →
      ((confirm_and_save fe exi "new" .always (.answer true) true).prompted).isSome
        = true) ∧
    (∀ fe exi, decideState fe exi "new" .always = .directWrite ∨
        decideState fe exi "new" .always = .directWriteWarn →
      (confirm_and_save fe exi "new" .always (.answer true) true).prompted = none ∧
      (true = true →
        (confirm_and_save fe exi "new" .always (.answer true) true).outcome =
          .saved)) :=
  confirm_policy_matrix "new" "old" (by decide) none .always (.answer true) true

/-- C10: when the file exists but its content read back as None (read
failure) or as the empty string, a prompting policy shows the full new
content instead of a diff while still using the overwrite prompt, and
the unchanged short-circuit fires only when the new content equals the
successfully read existing content. -/
theorem unreadable_existing_full_preview (formatted : String)
    (existing : Option String) (hex : existing = none ∨ existing = some "")
    (conf : Confirm) (hconf : conf = .always ∨ conf = .if_exists)
    (pa : PromptResult) (w : Bool) :
    (existing ≠ some formatted →
      (confirm_and_save true existing formatted conf pa w).prompted =
        some (Preview.fullContent formatted, Msg.overwrite)) ∧
    (existing = some formatted →
      confirm_and_save true existing formatted conf pa w =
        { prompted := none, warned := false, outcome := .unchanged }) := by
  constructor
  · intro hne
    have hd : decideState true existing formatted conf = .needsReview := by
      rcases hconf with h | h <;> subst h <;>
        simp [decideState, hne]
    rw [confirm_and_save, hd]
    have htr : truthyOpt existing = false := by
      rcases hex with h | h <;> subst h <;> simp [truthyOpt]
    cases pa with
    | interrupt => simp [htr]
    | answer b => cases b <;> simp [htr]
  · intro he
    have hd : decideState true existing formatted conf = .unchanged := by
      simp [decideState, he]
    rw [confirm_and_save, hd]

/-- Witness for C10: existing file reads back empty, new content differs. -/
theorem unreadable_existing_full_preview_witness :
    ((some "" : Option String) ≠ some "k: v\n" →
      (confirm_and_save true (some "") "k: v\n" .if_exists (.answer true) true).prompted =
        some (Preview.fullContent "k: v\n", Msg.overwrite)) ∧
    ((some "" : Option String) = some "k: v\n" →
      confirm_and_save true (some "") "k: v\n" .if_exists (.answer true) true =
        { prompted := none, warned := false, outcome := .unchanged }) :=
  unreadable_existing_full_preview "k: v\n" (some "") (Or.inr rfl) .if_exists
    (Or.inr rfl) (.answer true) true

theorem consEvents_abortedRun (es : List Event) (c : Nat) (es' : List Event) :
    RunResult.consEvents es (.abortedRun c es') = .abortedRun c (es ++ es') := by
  induction es with
  | nil => rfl
  | cons e es ih =>
    simp only [RunResult.consEvents, List.foldr_cons] at ih ⊢
    rw [ih]
    rfl

theorem consEvents_finished (es : List Event) (es' : List Event) :
    RunResult.consEvents es (.finished es') = .finished (es ++ es') := by
  induction es with
  | nil => rfl
  | cons e es ih =>
    simp only [RunResult.consEvents, List.foldr_cons] at ih ⊢
    rw [ih]
    rfl

theorem processOne_aborted {r : SaveResult} {c : Nat}
    (h : r.outcome = .aborted c) (p : String) (k : RunResult) :
    processOne p r k = .abortedRun c [Event.processed p r] := by
  rw [processOne, h]

theorem processOne_of_not_aborted {r : SaveResult}
    (h : ∀ c, r.outcome ≠ .aborted c) (p : String) (k : RunResult) :
    processOne p r k = k.consEvent (.processed p r) := by
  rw [processOne]
  cases ho : r.outcome with
  | aborted c => exact absurd ho (h c)
  | unchanged => rfl
  | declined => rfl
  | saved => rfl
  | saveFailed => rfl

theorem processPaths_cons_invalid {p raw : String} {env : PathEnv}
    {conf : Confirm} {s : String}
    (hv : validate_and_format_yaml raw = (none, s))
    (rest : List (String × String × PathEnv)) :
    processPaths ((p, raw, env) :: rest) conf =
      (processPaths rest conf).consEvent (.skippedInvalid p) := by
  simp only [processPaths, hv]

theorem processPaths_cons_valid {p raw : String} {env : PathEnv}
    {conf : Confirm} {ds : List (Option Doc)} {s : String}
    (hv : validate_and_format_yaml raw = (some ds, s))
    (rest : List (String × String × PathEnv)) :
    processPaths ((p, raw, env) :: rest) conf =
      processOne p
        (confirm_and_save env.fileExists env.existing s conf
          env.promptAnswer env.writeOk)
        (processPaths rest conf) := by
  simp only [processPaths, hv]

theorem consEvent_ne_finished_of_aborted {r : RunResult} {c : Nat}
    {es : List Event} {e : Event} (h : r = .abortedRun c es) :
    ∀ es', r.consEvent e ≠ .finished es' := by
  subst h
  intro es' hc
  cases hc

theorem processPaths_append_finished {pre : List (String × String × PathEnv)}
    {conf : Confirm} {es : List Event}
    (h : processPaths pre conf = .finished es)
    (rest : List (String × String × PathEnv)) :
    processPaths (pre ++ rest) conf =
      (processPaths rest conf).consEvents es := by
  induction pre generalizing es with
  | nil =>
    simp only [processPaths] at h
    cases h
    simp [RunResult.consEvents]
  | cons hd pre' ih =>
    obtain ⟨p, raw, env⟩ := hd
    rcases hv : validate_and_format_yaml raw with ⟨o, s⟩
    cases o with
    | none =>
      rw [processPaths_cons_invalid hv] at h
      rw [List.cons_append, processPaths_cons_invalid hv]
      cases hrec : processPaths pre' conf with
      | abortedRun c es0 => exact absurd h (consEvent_ne_finished_of_aborted hrec es)
      | finished es0 =>
        rw [hrec] at h
        cases h
        rw [ih hrec]
        rfl
    | some ds =>
      rw [processPaths_cons_valid hv] at h
      rw [List.cons_append, processPaths_cons_valid hv]
      by_cases hab : ∃ c, (confirm_and_save env.fileExists env.existing s conf
          env.promptAnswer env.writeOk).outcome = .aborted c
      · obtain ⟨c, hc⟩ := hab
        rw [processOne_aborted hc] at h
        cases h
      · push_neg at hab
        rw [processOne_of_not_aborted hab] at h
        rw [processOne_of_not_aborted hab]
        cases hrec : processPaths pre' conf with
        | abortedRun c es0 => exact absurd h (consEvent_ne_finished_of_aborted hrec es)
        | finished es0 =>
          rw [hrec] at h
          cases h
          rw [ih hrec]
          rfl

/-- C8: a KeyboardInterrupt during a confirmation prompt terminates the
whole remaining run at once with exit status 0: the run result is an
abort with code 0 whose events are exactly those of the already processed
prefix plus the interrupted prompt, independent of the paths still
pending, and the interrupted path is not written. -/
theorem interrupt_terminates_run
    (pre post : List (String × String × PathEnv)) (p raw : String)
    (env : PathEnv) (conf : Confirm) (es : List Event)
    (ds : List (Option Doc)) (formatted : String)
    (hpre : processPaths pre conf = .finished es)
    (hv : validate_and_format_yaml raw = (some ds, formatted))
    (hint : env.promptAnswer = .interrupt)
    (hstate : decideState env.fileExists env.existing formatted conf =
      .needsReview) :
    ∃ r : SaveResult,
      confirm_and_save env.fileExists env.existing formatted conf
        env.promptAnswer env.writeOk = r ∧
      r.outcome = .aborted 0 ∧ r.prompted.isSome = true ∧
      eventWrote (.processed p r) = false ∧
      processPaths (pre ++ (p, raw, env) :: post) conf =
        .abortedRun 0 (es ++ [Event.processed p r]) := by
  have hr : confirm_and_save env.fileExists env.existing formatted conf
      env.promptAnswer env.writeOk =
      { prompted := some
          (if env.fileExists = true ∧ truthyOpt env.existing = true then
            Preview.diff (env.existing.getD "") formatted
          else Preview.fullContent formatted,
          if env.fileExists = true then Msg.overwrite else Msg.saveNew),
        warned := false, outcome := .aborted 0 } := by
    rw [confirm_and_save, hstate, hint]
  have ho : (confirm_and_save env.fileExists env.existing formatted conf
      env.promptAnswer env.writeOk).outcome = .aborted 0 := by rw [hr]
  refine ⟨_, rfl, ho, ?_, ?_, ?_⟩
  · simp [hr]
  · rw [eventWrote, ho]
  · rw [processPaths_append_finished hpre, processPaths_cons_valid hv,
      processOne_aborted ho, consEvents_abortedRun]

/-- Witness for C8: an interrupted overwrite prompt on the first path. -/
theorem interrupt_terminates_run_witness :
    ∃ r : SaveResult,
      confirm_and_save true (some "old") "k: v\n" .always .interrupt true = r ∧
      r.outcome = .aborted 0 ∧ r.prompted.isSome = true ∧
      eventWrote (.processed "a" r) = false ∧
      processPaths ([] ++ ("a", "k: v\n",
          PathEnv.mk true (some "old") .interrupt true) :: []) .always =
        .abortedRun 0 ([] ++ [Event.processed "a" r]) :=
  interrupt_terminates_run [] [] "a" "k: v\n"
    (PathEnv.mk true (some "old") .interrupt true) .always []
    [some [(['k'], ⟨QStyle.plain, ['v']⟩)]] "k: v\n" rfl rfl rfl (by decide)

theorem confirm_and_save_no_write (fe : Bool) (ex : Option String)
    (f : String) (conf : Confirm) {pa : PromptResult}
    (hpa : pa ≠ .interrupt) :
    (∀ c, (confirm_and_save fe ex f conf pa false).outcome ≠ .aborted c) ∧
    (confirm_and_save fe ex f conf pa false).outcome ≠ .saved := by
  cases hd : decideState fe ex f conf with
  | unchanged =>
    rw [confirm_and_save, hd]
    refine ⟨fun c h => ?_, fun h => ?_⟩ <;> cases h
  | needsReview =>
    rw [confirm_and_save, hd]
    cases pa with
    | interrupt => exact absurd rfl hpa
    | answer b =>
      cases b with
      | false => refine ⟨fun c h => ?_, fun h => ?_⟩ <;> cases h
      | true => refine ⟨fun c h => ?_, fun h => ?_⟩ <;> cases h
  | directWrite =>
    rw [confirm_and_save, hd]
    refine ⟨fun c h => ?_, fun h => ?_⟩ <;> cases h
  | directWriteWarn =>
    rw [confirm_and_save, hd]
    refine ⟨fun c h => ?_, fun h => ?_⟩ <;> cases h

/-- C9: an I/O failure during directory creation or write is local to
that output path: the decision engine does not raise, the path's event
records no completed write, and the run continues with the remaining
paths exactly as it would have. -/
theorem write_failure_continues_run (p raw : String) (env : PathEnv)
    (rest : List (String × String × PathEnv)) (conf : Confirm)
    (hw : env.writeOk = false) (hpa : env.promptAnswer ≠ .interrupt) :
    ∃ e : Event, eventWrote e = false ∧
      processPaths ((p, raw, env) :: rest) conf =
        (processPaths rest conf).consEvent e := by
  rcases hv : validate_and_format_yaml raw with ⟨o, s⟩
  cases o with
  | none => exact ⟨.skippedInvalid p, rfl, processPaths_cons_invalid hv rest⟩
  | some ds =>
    obtain ⟨hnab, hns⟩ :=
      confirm_and_save_no_write env.fileExists env.existing s conf hpa
    rw [← hw] at hnab hns
    refine ⟨.processed p (confirm_and_save env.fileExists env.existing s conf
      env.promptAnswer env.writeOk), ?_, ?_⟩
    · rw [eventWrote]
      cases ho : (confirm_and_save env.fileExists env.existing s conf
          env.promptAnswer env.writeOk).outcome with
      | saved => exact absurd ho hns
      | unchanged => rfl
      | declined => rfl
      | aborted c => rfl
      | saveFailed => rfl
    · rw [processPaths_cons_valid hv, processOne_of_not_aborted hnab]

/-- Witness for C9: a failing write under policy never on the only path. -/
theorem write_failure_continues_run_witness :
    ∃ e : Event, eventWrote e = false ∧
      processPaths (("a", "k: v\n",
          PathEnv.mk true (some "old") (.answer true) false) :: []) .never =
        (processPaths [] .never).consEvent e :=
  write_failure_continues_run "a" "k: v\n"
    (PathEnv.mk true (some "old") (.answer true) false) [] .never rfl
    (by decide)

/-- C6: a parse exception is caught inside `validate_and_format_yaml`,
which then returns the original content unchanged, flagged unparsed. -/
theorem parse_failure_returns_original (content : String)
    (h : parseDocs content.data = none) :
    validate_and_format_yaml content = (none, content) := by
  rw [validate_and_format_yaml, h]

/-- Witness for C6: a bare colon is not parseable YAML of the fragment. -/
theorem parse_failure_returns_original_witness :
    validate_and_format_yaml ":" = (none, ":") :=
  parse_failure_returns_original ":" rfl

theorem meaningful_eq_false {ds : List (Option Doc)} :
    meaningful ds = false ↔ ∀ d ∈ ds, d = none ∨ d = some [] := by
  rw [meaningful, List.any_eq_false]
  constructor
  · intro h d hd
    have hh := h d hd
    cases d with
    | none => exact Or.inl rfl
    | some l =>
      cases l with
      | nil => exact Or.inr rfl
      | cons a l' => simp at hh
  · intro h d hd
    rcases h d hd with he | he <;> subst he <;> simp

/-- C5: when parsing succeeds, `validate_and_format_yaml` returns the
original text flagged unparsed exactly when every parsed document is
null or empty; when some document is a nonempty mapping it returns the
parsed sequence together with the canonical re-serialization. -/
theorem empty_documents_flagged_unparsed (content : String)
    (ds : List (Option Doc)) (h : parseDocs content.data = some ds) :
    (validate_and_format_yaml content = (none, content) ↔
      ∀ d ∈ ds, d = none ∨ d = some []) ∧
    (¬ (∀ d ∈ ds, d = none ∨ d = some []) →
      validate_and_format_yaml content =
        (some ds, String.mk (dumpAllOpt ds))) := by
  rw [validate_and_format_yaml, h]
  cases hm : meaningful ds with
  | false =>
    have hall := meaningful_eq_false.mp hm
    simp only [hm]
    exact ⟨⟨fun _ => hall, fun _ => by simp⟩, fun hc => absurd hall hc⟩
  | true =>
    have hnall : ¬ ∀ d ∈ ds, d = none ∨ d = some [] := by
      intro hall
      rw [meaningful_eq_false.mpr hall] at hm
      cases hm
    simp only [hm]
    refine ⟨⟨fun heq => ?_, fun hall => absurd hall hnall⟩, fun _ => by simp⟩
    have := congrArg Prod.fst heq
    simp at this

/-- Witness for C5: a document stream of null documents only. -/
theorem empty_documents_flagged_unparsed_witness :
    (validate_and_format_yaml "---\n" = (none, "---\n") ↔
      ∀ d ∈ [(none : Option Doc), none], d = none ∨ d = some []) ∧
    (¬ (∀ d ∈ [(none : Option Doc), none], d = none ∨ d = some []) →
      validate_and_format_yaml "---\n" =
        (some [none, none], String.mk (dumpAllOpt [none, none]))) :=
  empty_documents_flagged_unparsed "---\n" [none, none] rfl

theorem splitNl_append (l cs : Chars) (h : '\n' ∉ l) :
    splitNl (l ++ '\n' :: cs) = l :: splitNl cs := by
  induction l with
  | nil => simp [splitNl]
  | cons c l ih =>
    have hc : ¬ c = '\n' := fun he => h (by rw [he]; exact List.mem_cons_self _ _)
    have hl : '\n' ∉ l := fun hm => h (List.mem_cons_of_mem _ hm)
    simp only [List.cons_append, splitNl, if_neg hc, List.append_eq]
    rw [ih hl]

theorem splitNl_linesToText (ls : List Chars) (h : ∀ l ∈ ls, '\n' ∉ l) :
    splitNl (linesToText ls) = ls ++ [[]] := by
  induction ls with
  | nil => simp [linesToText, splitNl]
  | cons l ls ih =>
    have h1 : '\n' ∉ l := h l (List.mem_cons_self _ _)
    have h2 : ∀ x ∈ ls, '\n' ∉ x := fun x hx => h x (List.mem_cons_of_mem _ hx)
    simp only [linesToText, List.map_cons, List.flatten_cons]
    rw [List.append_assoc, List.singleton_append, splitNl_append l _ h1]
    rw [← linesToText, ih h2]
    rfl

theorem dropLastEmpty_concat (ls : List Chars) :
    dropLastEmpty (ls ++ [[]]) = ls := by
  induction ls with
  | nil => rfl
  | cons l ls ih =>
    cases ls with
    | nil => rfl
    | cons l2 ls2 =>
      simp only [List.cons_append] at ih ⊢
      rw [dropLastEmpty, ih]

theorem splitSep_no_sep (lines : List Chars) (h : ∀ l ∈ lines, l ≠ sepLine) :
    splitSep lines = [lines] := by
  induction lines with
  | nil => rfl
  | cons l rest ih =>
    have h1 : ¬ l = sepLine := h l (List.mem_cons_self _ _)
    have h2 : ∀ x ∈ rest, x ≠ sepLine := fun x hx => h x (List.mem_cons_of_mem _ hx)
    simp only [splitSep, if_neg h1]
    rw [ih h2]

theorem splitSep_append_sep (s rest : List Chars) (hs : ∀ l ∈ s, l ≠ sepLine) :
    splitSep (s ++ sepLine :: rest) = s :: splitSep rest := by
  induction s with
  | nil => simp [splitSep]
  | cons l s ih =>
    have h1 : ¬ l = sepLine := hs l (List.mem_cons_self _ _)
    have h2 : ∀ x ∈ s, x ≠ sepLine := fun x hx => hs x (List.mem_cons_of_mem _ hx)
    simp only [List.cons_append, splitSep, if_neg h1, List.append_eq]
    rw [ih h2]

theorem splitSep_sepJoin (segs : List (List Chars)) (hne : segs ≠ [])
    (h : ∀ seg ∈ segs, ∀ l ∈ seg, l ≠ sepLine) :
    splitSep (sepJoin segs) = segs := by
  induction segs with
  | nil => exact absurd rfl hne
  | cons s segs ih =>
    cases segs with
    | nil => exact splitSep_no_sep s (h s (List.mem_cons_self _ _))
    | cons s2 rest =>
      rw [sepJoin,
        splitSep_append_sep s _ (h s (List.mem_cons_self _ _)),
        ih (List.cons_ne_nil _ _)
          (fun seg hseg l hl => h seg (List.mem_cons_of_mem _ hseg) l hl)]

theorem parseScalar_dumpScalar (s : Scalar) (h : scalarOk s) :
    parseScalar (dumpScalar s) = some s := by
  obtain ⟨st, t⟩ := s
  cases st with
  | plain =>
    have hp : plainOk t := h
    obtain ⟨hne, hall, hh, hl⟩ := hp
    cases t with
    | nil => exact absurd rfl hne
    | cons c rest =>
      obtain ⟨-, -, -, hq, hsq⟩ := hall c (List.mem_cons_self _ _)
      show parseScalar (c :: rest) = some ⟨.plain, c :: rest⟩
      simp only [parseScalar, if_neg hq, if_neg hsq,
        if_pos (show plainOk (c :: rest) from h)]
  | dquote =>
    have hd : dqOk t := h
    show parseScalar ('"' :: (t ++ ['"'])) = some ⟨.dquote, t⟩
    simp [parseScalar, List.getLast?_concat, List.dropLast_concat, hd]
  | squote =>
    have hd : sqOk t := h
    show parseScalar ('\'' :: (t ++ ['\''])) = some ⟨.squote, t⟩
    simp [parseScalar, List.getLast?_concat, List.dropLast_concat, hd]

theorem splitColon_append (k rest : Chars) (h : ':' ∉ k) :
    splitColon (k ++ ':' :: rest) = some (k, rest) := by
  induction k with
  | nil => simp [splitColon]
  | cons c k ih =>
    have hc : ¬ c = ':' := fun he => h (by rw [he]; exact List.mem_cons_self _ _)
    have hk : ':' ∉ k := fun hm => h (List.mem_cons_of_mem _ hm)
    simp only [List.cons_append, splitColon, if_neg hc, List.append_eq]
    rw [ih hk]
    rfl

theorem parseLine_dumpLine (p : Entry) (hk : keyOk p.1) (hs : scalarOk p.2) :
    parseLine (dumpLine p) = some p := by
  have hcolon : ':' ∉ p.1 := fun hm => (hk.2.1 ':' hm).1 rfl
  rw [dumpLine, parseLine, splitColon_append p.1 _ hcolon]
  simp [parseScalar_dumpScalar p.2 hs, if_pos hk]

theorem parseLines_dumpDoc (d : Doc)
    (h : ∀ p ∈ d, keyOk p.1 ∧ scalarOk p.2) :
    parseLines (dumpDoc d) = some d := by
  induction d with
  | nil => rfl
  | cons p d ih =>
    obtain ⟨hk, hs⟩ := h p (List.mem_cons_self _ _)
    simp only [dumpDoc, List.map_cons, parseLines,
      parseLine_dumpLine p hk hs]
    rw [show List.map dumpLine d = dumpDoc d from rfl,
      ih (fun q hq => h q (List.mem_cons_of_mem _ hq))]
    rfl

theorem parseScalar_ok {v : Chars} {s : Scalar}
    (h : parseScalar v = some s) : scalarOk s := by
  cases v with
  | nil => cases h
  | cons c rest =>
    simp only [parseScalar] at h
    by_cases h1 : c = '"'
    · rw [if_pos h1] at h
      cases hg : rest.getLast? with
      | none => rw [hg] at h; cases h
      | some d =>
        rw [hg] at h
        simp only [] at h
        by_cases h2 : d = '"' ∧ dqOk rest.dropLast
        · rw [if_pos h2] at h
          cases h
          exact h2.2
        · rw [if_neg h2] at h; cases h
    · rw [if_neg h1] at h
      by_cases h2 : c = '\''
      · rw [if_pos h2] at h
        cases hg : rest.getLast? with
        | none => rw [hg] at h; cases h
        | some d =>
          rw [hg] at h
          simp only [] at h
          by_cases h3 : d = '\'' ∧ sqOk rest.dropLast
          · rw [if_pos h3] at h
            cases h
            exact h3.2
          · rw [if_neg h3] at h; cases h
      · rw [if_neg h2] at h
        by_cases h3 : plainOk (c :: rest)
        · rw [if_pos h3] at h
          cases h
          exact h3
        · rw [if_neg h3] at h; cases h

theorem parseLine_ok {l : Chars} {p : Entry}
    (h : parseLine l = some p) : keyOk p.1 ∧ scalarOk p.2 := by
  cases hsc : splitColon l with
  | none => rw [parseLine, hsc] at h; cases h
  | some kv =>
    obtain ⟨k, rest⟩ := kv
    cases rest with
    | nil => rw [parseLine, hsc] at h; cases h
    | cons c v =>
      rw [parseLine, hsc] at h
      simp only [] at h
      by_cases hc : c = ' '
      · rw [if_pos hc] at h
        by_cases hk : keyOk k
        · rw [if_pos hk] at h
          cases hps : parseScalar v with
          | none => rw [hps] at h; cases h
          | some s0 =>
            rw [hps] at h
            cases h
            exact ⟨hk, parseScalar_ok hps⟩
        · rw [if_neg hk] at h; cases h
      · rw [if_neg hc] at h
        cases h

theorem parseLines_ok {ls : List Chars} {d : List Entry}
    (h : parseLines ls = some d) :
    (∀ p ∈ d, keyOk p.1 ∧ scalarOk p.2) ∧ d.length = ls.length := by
  induction ls generalizing d with
  | nil =>
    cases h
    exact ⟨fun p hp => absurd hp (List.not_mem_nil p), rfl⟩
  | cons l ls ih =>
    simp only [parseLines] at h
    cases hpl : parseLine l with
    | none => rw [hpl] at h; cases h
    | some p0 =>
      rw [hpl] at h
      cases hrec : parseLines ls with
      | none => rw [hrec] at h; cases h
      | some d' =>
        rw [hrec] at h
        cases h
        obtain ⟨hall, hlen⟩ := ih hrec
        refine ⟨?_, by simp [hlen]⟩
        intro q hq
        rcases List.mem_cons.mp hq with he | hq'
        · subst he; exact parseLine_ok hpl
        · exact hall q hq'

theorem parseSegs_ok {segs : List (List Chars)} {ds : List Doc}
    (h : parseSegs segs = some ds) :
    ∀ d ∈ ds, d ≠ [] ∧ ∀ p ∈ d, keyOk p.1 ∧ scalarOk p.2 := by
  induction segs generalizing ds with
  | nil =>
    cases h
    exact fun d hd => absurd hd (List.not_mem_nil d)
  | cons seg segs ih =>
    simp only [parseSegs] at h
    by_cases he : seg.isEmpty
    · rw [if_pos he] at h; cases h
    · rw [if_neg he] at h
      cases hpl : parseLines seg with
      | none => rw [hpl] at h; cases h
      | some d0 =>
        rw [hpl] at h
        cases hrec : parseSegs segs with
        | none => rw [hrec] at h; cases h
        | some ds' =>
          rw [hrec] at h
          cases h
          intro d hd
          rcases List.mem_cons.mp hd with he' | he'
          · subst he'
            obtain ⟨hall, hlen⟩ := parseLines_ok hpl
            refine ⟨?_, hall⟩
            intro hd0
            rw [hd0] at hlen
            have hseg : seg = [] := List.length_eq_zero.mp hlen.symm
            rw [hseg] at he
            exact he rfl
          · exact ih hrec d he'

theorem colon_mem_dumpLine (p : Entry) : ':' ∈ dumpLine p := by
  rw [dumpLine]
  exact List.mem_append_right _ (List.mem_cons_self _ _)

theorem dumpLine_ne_sepLine (p : Entry) : dumpLine p ≠ sepLine := by
  intro h
  have hm := colon_mem_dumpLine p
  rw [h] at hm
  rcases List.mem_cons.mp hm with he | hm
  · exact absurd he (by decide)
  · rcases List.mem_cons.mp hm with he | hm
    · exact absurd he (by decide)
    · rcases List.mem_cons.mp hm with he | hm
      · exact absurd he (by decide)
      · exact absurd hm (List.not_mem_nil _)

theorem noNl_dumpScalar {s : Scalar} (hs : scalarOk s) :
    '\n' ∉ dumpScalar s := by
  obtain ⟨st, t⟩ := s
  cases st with
  | plain =>
    intro hm
    exact ((hs : plainOk t).2.1 '\n' hm).1 rfl
  | dquote =>
    intro hm
    rcases List.mem_cons.mp hm with he | hm
    · exact absurd he (by decide)
    · rcases List.mem_append.mp hm with hm | hm
      · exact ((hs : dqOk t) '\n' hm).2.2 rfl
      · rcases List.mem_cons.mp hm with he | hm
        · exact absurd he (by decide)
        · exact absurd hm (List.not_mem_nil _)
  | squote =>
    intro hm
    rcases List.mem_cons.mp hm with he | hm
    · exact absurd he (by decide)
    · rcases List.mem_append.mp hm with hm | hm
      · exact ((hs : sqOk t) '\n' hm).2 rfl
      · rcases List.mem_cons.mp hm with he | hm
        · exact absurd he (by decide)
        · exact absurd hm (List.not_mem_nil _)

theorem noNl_dumpLine {p : Entry} (hk : keyOk p.1) (hs : scalarOk p.2) :
    '\n' ∉ dumpLine p := by
  intro hm
  rw [dumpLine] at hm
  rcases List.mem_append.mp hm with hm | hm
  · exact (hk.2.1 '\n' hm).2.1 rfl
  · rcases List.mem_cons.mp hm with he | hm
    · exact absurd he (by decide)
    · rcases List.mem_cons.mp hm with he | hm
      · exact absurd he (by decide)
      · exact noNl_dumpScalar hs hm

theorem not_isTrivial_dumpLine {p : Entry} (hk : keyOk p.1) :
    ¬ isTrivial (dumpLine p) := by
  intro ht
  rcases ht with hb | hc | hsep
  · exact absurd (hb ':' (colon_mem_dumpLine p)) (by decide)
  · obtain ⟨hne, hall, hh, hl⟩ := hk
    obtain ⟨c0, k', hk'⟩ := List.exists_cons_of_ne_nil hne
    have hc0 : ¬ c0 = ' ' := by
      intro he
      exact hh (by rw [hk', he]; rfl)
    have hhash : c0 ≠ '#' := (hall c0 (by rw [hk']; exact List.mem_cons_self _ _)).2.2.1
    rw [isComment, dumpLine, hk', List.cons_append, List.dropWhile_cons] at hc
    rw [decide_eq_false hc0] at hc
    simp only [Bool.false_eq_true, if_false, List.head?_cons] at hc
    exact hhash (by injection hc)
  · exact dumpLine_ne_sepLine p hsep

theorem mem_sepJoin_of_mem {l : Chars} {seg : List Chars}
    {segs : List (List Chars)} (hseg : seg ∈ segs) (hl : l ∈ seg) :
    l ∈ sepJoin segs := by
  induction segs with
  | nil => cases hseg
  | cons s rest ih =>
    cases rest with
    | nil =>
      rcases List.mem_cons.mp hseg with he | h2
      · subst he; exact hl
      · cases h2
    | cons s2 rest2 =>
      rw [sepJoin]
      rcases List.mem_cons.mp hseg with he | hseg'
      · subst he; exact List.mem_append_left _ hl
      · exact List.mem_append_right _ (List.mem_cons_of_mem _ (ih hseg'))

theorem mem_of_mem_sepJoin {l : Chars} {segs : List (List Chars)}
    (h : l ∈ sepJoin segs) : (∃ seg ∈ segs, l ∈ seg) ∨ l = sepLine := by
  induction segs with
  | nil => cases h
  | cons s rest ih =>
    cases rest with
    | nil => exact Or.inl ⟨s, List.mem_cons_self _ _, h⟩
    | cons s2 rest2 =>
      rw [sepJoin] at h
      rcases List.mem_append.mp h with h1 | h1
      · exact Or.inl ⟨s, List.mem_cons_self _ _, h1⟩
      · rcases List.mem_cons.mp h1 with he | h2
        · exact Or.inr he
        · rcases ih h2 with ⟨seg, hseg, hl⟩ | he
          · exact Or.inl ⟨seg, List.mem_cons_of_mem _ hseg, hl⟩
          · exact Or.inr he

theorem parseSegs_dumpDocs (ds : List Doc)
    (h : ∀ d ∈ ds, d ≠ [] ∧ ∀ p ∈ d, keyOk p.1 ∧ scalarOk p.2) :
    parseSegs (ds.map dumpDoc) = some ds := by
  induction ds with
  | nil => rfl
  | cons d ds ih =>
    obtain ⟨hne, hall⟩ := h d (List.mem_cons_self _ _)
    have hnem : ¬ (dumpDoc d).isEmpty = true := by
      cases d with
      | nil => exact absurd rfl hne
      | cons p d' => simp [dumpDoc]
    simp only [List.map_cons, parseSegs, if_neg hnem]
    rw [parseLines_dumpDoc d hall,
      ih (fun d' hd' => h d' (List.mem_cons_of_mem _ hd'))]
    rfl

theorem parseDocs_dumpDocs (ds : List Doc) (hne : ds ≠ [])
    (hWF : ∀ d ∈ ds, d ≠ [] ∧ ∀ p ∈ d, keyOk p.1 ∧ scalarOk p.2) :
    parseDocs (dumpDocs ds) = some (ds.map some) := by
  have hno : ∀ l ∈ sepJoin (ds.map dumpDoc), '\n' ∉ l := by
    intro l hl
    rcases mem_of_mem_sepJoin hl with ⟨seg, hseg, hlseg⟩ | he
    · obtain ⟨d, hd, hdd⟩ := List.mem_map.mp hseg
      subst hdd
      obtain ⟨q, hq, hql⟩ := List.mem_map.mp hlseg
      subst hql
      obtain ⟨hk, hs⟩ := (hWF d hd).2 q hq
      exact noNl_dumpLine hk hs
    · subst he
      decide
  have hlines : dropLastEmpty (splitNl (dumpDocs ds)) =
      sepJoin (ds.map dumpDoc) := by
    rw [dumpDocs, splitNl_linesToText _ hno, dropLastEmpty_concat]
  have hnosep : ∀ seg ∈ ds.map dumpDoc, ∀ l ∈ seg, l ≠ sepLine := by
    intro seg hseg l hl
    obtain ⟨d, hd, hdd⟩ := List.mem_map.mp hseg
    subst hdd
    obtain ⟨q, hq, hql⟩ := List.mem_map.mp hl
    subst hql
    exact dumpLine_ne_sepLine q
  have hnontriv : ¬ ∀ l ∈ dropLastEmpty (splitNl (dumpDocs ds)), isTrivial l := by
    rw [hlines]
    intro hall
    obtain ⟨d1, ds', hds⟩ := List.exists_cons_of_ne_nil hne
    have hd1mem : d1 ∈ ds := by rw [hds]; exact List.mem_cons_self _ _
    obtain ⟨hne1, hall1⟩ := hWF d1 hd1mem
    obtain ⟨p1, d1', hd1⟩ := List.exists_cons_of_ne_nil hne1
    have hp1mem : p1 ∈ d1 := by rw [hd1]; exact List.mem_cons_self _ _
    have hmem : dumpLine p1 ∈ sepJoin (ds.map dumpDoc) :=
      mem_sepJoin_of_mem (List.mem_map_of_mem _ hd1mem)
        (List.mem_map_of_mem _ hp1mem)
    exact not_isTrivial_dumpLine (hall1 p1 hp1mem).1 (hall _ hmem)
  have hsegsne : ds.map dumpDoc ≠ [] := by
    intro he
    exact hne (List.map_eq_nil_iff.mp he)
  rw [parseDocs, if_neg hnontriv, hlines,
    splitSep_sepJoin _ hsegsne hnosep, parseSegs_dumpDocs ds hWF]

theorem dumpAllOpt_map_some (ds : List Doc) :
    dumpAllOpt (ds.map some) = dumpDocs ds := by
  rw [dumpAllOpt, List.map_map]
  have hf : ((fun (d : Option Doc) => d.getD []) ∘ some) =
      (fun (d : Doc) => d) := by
    funext d
    rfl
  rw [hf, List.map_id']

theorem meaningful_map_none (xs : List (List Chars)) :
    meaningful (xs.map (fun _ => (none : Option Doc))) = false := by
  induction xs with
  | nil => rfl
  | cons x xs ih => exact ih

theorem parseDocs_meaningful_shape {cs : Chars} {ds0 : List (Option Doc)}
    (h : parseDocs cs = some ds0) (hm : meaningful ds0 = true) :
    ∃ dsD, ds0 = dsD.map some ∧ dsD ≠ [] ∧
      ∀ d ∈ dsD, d ≠ [] ∧ ∀ p ∈ d, keyOk p.1 ∧ scalarOk p.2 := by
  rw [parseDocs] at h
  by_cases hc : ∀ l ∈ dropLastEmpty (splitNl cs), isTrivial l
  · rw [if_pos hc] at h
    injection h with h'
    subst h'
    rw [meaningful_map_none] at hm
    cases hm
  · rw [if_neg hc] at h
    cases hps : parseSegs (splitSep (dropLastEmpty (splitNl cs))) with
    | none => rw [hps] at h; cases h
    | some dsD =>
      rw [hps] at h
      cases h
      refine ⟨dsD, rfl, ?_, parseSegs_ok hps⟩
      intro hnil
      subst hnil
      cases hm

/-- C3: canonicalization is stable. When `validate_and_format_yaml`
succeeds with parsed documents `ds` and canonical text, running it again
on the canonical text returns the very same document sequence, scalar
quoting styles included, and byte-identical canonical text. -/
theorem canonicalization_stable (content canonical : String)
    (ds : List (Option Doc))
    (h : validate_and_format_yaml content = (some ds, canonical)) :
    validate_and_format_yaml canonical = (some ds, canonical) := by
  rw [validate_and_format_yaml] at h
  cases hp : parseDocs content.data with
  | none =>
    rw [hp] at h
    exact absurd (congrArg Prod.fst h) (by simp)
  | some ds0 =>
    rw [hp] at h
    cases hm : meaningful ds0 with
    | false =>
      simp only [hm, Bool.false_eq_true, if_false] at h
      exact absurd (congrArg Prod.fst h) (by simp)
    | true =>
      simp only [hm, if_true] at h
      injection h with h1 h2
      injection h1 with h1
      subst h1
      obtain ⟨dsD, hds0, hneD, hWF⟩ := parseDocs_meaningful_shape hp hm
      subst hds0
      have hdata : canonical.data = dumpDocs dsD := by
        rw [← h2, dumpAllOpt_map_some]
      rw [validate_and_format_yaml, hdata, parseDocs_dumpDocs dsD hneD hWF]
      simp only [hm, if_true]
      rw [h2]

/-- Witness for C3: text without a trailing newline and with a
double-quoted scalar canonicalizes to newline-terminated text keeping the
quotes, and that canonical text re-canonicalizes to itself. -/
theorem canonicalization_stable_witness :
    validate_and_format_yaml "a: \"x\"\n" =
      (some [some [(['a'], ⟨QStyle.dquote, ['x']⟩)]], "a: \"x\"\n") :=
  canonicalization_stable "a: \"x\"" "a: \"x\"\n"
    [some [(['a'], ⟨QStyle.dquote, ['x']⟩)]] rfl

end Fluxit
